import Mathlib

/-!
Verification of the abductive disease-symptom diagnosis engine (`app.py`).

Strings are modelled as `List Char` (ASCII text after the source's
`as_pystr`, which strips non-ASCII bytes).  Python dicts are modelled as
association lists in insertion order (assigning to an existing key keeps
its position and overwrites the value; a new key is appended at the end),
and Python sets of symptom slugs as duplicate-free lists in insertion
order (`set.add` appends when the element is absent), which preserves
size, membership and iteration determinism.  The Prolog fact store filled
by `assertz` is modelled as the list of `(disease, symptom)` pairs in
assertion order; `prolog.query("has_symptom(Disease, s)")` enumerates the
matching facts in that order.
-/

/-- Canonical identifier: an ASCII string modelled as a list of characters. -/
abbrev Slug := List Char

/-- One entry of the explanation map: a disease slug with its matched-symptom
set (modelled as an insertion-ordered duplicate-free list). -/
abbrev Entry := Slug × List Slug

/-- Characters stripped by Python `str.strip()` (the ASCII whitespace ones:
space, tab, LF, VT, FF, CR). -/
def isSpaceChar (c : Char) : Bool :=
  decide (c.toNat = 32 ∨ c.toNat = 9 ∨ c.toNat = 10 ∨ c.toNat = 11 ∨ c.toNat = 12 ∨ c.toNat = 13)

/-- Python `str.lower()` on the ASCII range: maps `A`-`Z` (65-90) to `a`-`z`. -/
def pyLower (c : Char) : Char :=
  if 65 ≤ c.toNat ∧ c.toNat ≤ 90 then Char.ofNat (c.toNat + 32) else c

/-- Characters kept by the regex `[^a-z0-9_]` deletion in `slugify`:
`a`-`z` (97-122), `0`-`9` (48-57) and `_` (95). -/
def isSlugChar (c : Char) : Bool :=
  decide ((97 ≤ c.toNat ∧ c.toNat ≤ 122) ∨ (48 ≤ c.toNat ∧ c.toNat ≤ 57) ∨ c.toNat = 95)

/-- Python `str.strip()`: drop whitespace from both ends. -/
def pyStrip (l : List Char) : List Char :=
  ((l.dropWhile isSpaceChar).reverse.dropWhile isSpaceChar).reverse

/-- The namespace marker `umls_` prepended by `slugify`. -/
def umlsUnd : List Char := ['u', 'm', 'l', 's', '_']

/-- The coded-source marker `umls:` stripped (case-insensitively) by `slugify`. -/
def umlsColon : List Char := ['u', 'm', 'l', 's', ':']

/-- `slugify` (app.py lines 15-23): strip; delete one leading case-insensitive
`UMLS:`; replace `:` and space by `_`; lowercase; delete every character
outside `[a-z0-9_]`; prepend `umls_` unless already present. -/
def slugify (text : List Char) : List Char :=
  let t1 := pyStrip text
  let t2 := if (t1.take 5).map pyLower = umlsColon then t1.drop 5 else t1
  let t3 := (t2.map (fun c => if c = ':' ∨ c = ' ' then '_' else c)).map pyLower
  let t4 := t3.filter isSlugChar
  if t4.take 5 = umlsUnd then t4 else umlsUnd ++ t4

/-- Helper for `pySplit`: accumulates the current field (reversed). -/
def pySplitAux (sep : Char) : List Char → List Char → List (List Char)
  | [], acc => [acc.reverse]
  | c :: rest, acc =>
      if c = sep then acc.reverse :: pySplitAux sep rest []
      else pySplitAux sep rest (c :: acc)

/-- Python `str.split(sep)` for a one-character separator
(`row.Symptom.split(',')` in app.py line 77). -/
def pySplit (sep : Char) (l : List Char) : List (List Char) :=
  pySplitAux sep l []

/-- Python dict assignment `m[k] = v`: overwrite in place if the key exists
(keeping its position), otherwise append the new binding at the end. -/
def dictInsert (m : List (Slug × List Char)) (k : Slug) (v : List Char) :
    List (Slug × List Char) :=
  if m.any (fun p => decide (p.1 = k)) then
    m.map (fun p => if p.1 = k then (p.1, v) else p)
  else m ++ [(k, v)]

/-- Python dict lookup `m[k]` as an `Option`: the value of the first (and,
with unique keys, only) binding of `k`. -/
def lookupDict (m : List (Slug × List Char)) (k : Slug) : Option (List Char) :=
  (m.find? (fun p => decide (p.1 = k))).map (fun p => p.2)

/-- The state built by `load_prolog_from_xlsx` (app.py lines 67-84): the
asserted `has_symptom` facts in assertion order plus the two label dicts. -/
structure KB where
  facts : List (Slug × Slug)
  dmap : List (Slug × List Char)
  smap : List (Slug × List Char)

/-- Body of the inner loop of `load_prolog_from_xlsx` (app.py lines 77-84):
strip and slugify one comma-separated symptom piece, store its label with a
plain dict assignment, and assert the `has_symptom` fact. -/
def loadField (d_slug : Slug) (kb : KB) (field : List Char) : KB :=
  let s_raw := pyStrip field
  let s_slug := slugify s_raw
  { kb with
    smap := dictInsert kb.smap s_slug s_raw
    facts := kb.facts ++ [(d_slug, s_slug)] }

/-- Body of the outer loop of `load_prolog_from_xlsx` (app.py lines 73-84):
strip and slugify the row's disease, store its label, then process every
comma-separated symptom piece. -/
def loadRow (kb : KB) (row : List Char × List Char) : KB :=
  let d_raw := pyStrip row.1
  let d_slug := slugify d_raw
  (pySplit ',' row.2).foldl (loadField d_slug)
    { kb with dmap := dictInsert kb.dmap d_slug d_raw }

/-- `load_prolog_from_xlsx` (app.py lines 71-84), applied to the already
parsed spreadsheet rows `(Disease, Symptom)` (the pandas read and `as_pystr`
ASCII coercion are the external tabular collaborator). -/
def load_prolog_from_xlsx (records : List (List Char × List Char)) : KB :=
  records.foldl loadRow ⟨[], [], []⟩

/-- The symptom `(slug, raw-label)` pairs a record list registers, in
processing order (used to state which label survives in the dict). -/
def symptomPairs (records : List (List Char × List Char)) : List (Slug × List Char) :=
  records.flatMap (fun row =>
    (pySplit ',' row.2).map (fun field => (slugify (pyStrip field), pyStrip field)))

/-- The matching test of the resolver loop (app.py line 97): the lowercased
mention occurs inside the lowercased raw label, or the mention with spaces
replaced by underscores occurs inside the slug. -/
def matchesMention (entLabel : List Char) (p : Slug × List Char) : Bool :=
  decide (entLabel <:+: p.2.map pyLower) ||
    decide (entLabel.map (fun c => if c = ' ' then '_' else c) <:+: p.1)

/-- The per-mention resolution of `extract_symptoms` (app.py lines 93-102):
lowercase and strip the mention, take the slug of the first label-table entry
it matches, falling back to `slugify` of the mention itself. -/
def resolve_mention (smap : List (Slug × List Char)) (mention : List Char) : Slug :=
  let entLabel := (pyStrip mention).map pyLower
  match smap.find? (matchesMention entLabel) with
  | some p => p.1
  | none => slugify entLabel

/-- `extract_symptoms` (app.py lines 88-103) restricted to its in-scope part:
the entity extractor is external and supplies the mention strings; each is
resolved independently and the results concatenated in order. -/
def extract_symptoms (smap : List (Slug × List Char)) (mentions : List (List Char)) :
    List Slug :=
  mentions.map (resolve_mention smap)

/-- `prolog.query("has_symptom(Disease, s)")` (app.py line 109): the diseases
of all facts with symptom `s`, in assertion order. -/
def explainingDiseases (facts : List (Slug × Slug)) (s : Slug) : List Slug :=
  (facts.filter (fun p => decide (p.2 = s))).map (fun p => p.1)

/-- Python `set.add`: append the element unless already present. -/
def insertOnce (l : List Slug) (s : Slug) : List Slug :=
  if s ∈ l then l else l ++ [s]

/-- `explanation.setdefault(disease, set()).add(symptom)` (app.py line 111):
extend the disease's set if the key exists (keeping dict order), otherwise
append a fresh singleton entry. -/
def addExpl (m : List Entry) (d : Slug) (s : Slug) : List Entry :=
  if m.any (fun p => decide (p.1 = d)) then
    m.map (fun p => if p.1 = d then (p.1, insertOnce p.2 s) else p)
  else m ++ [(d, [s])]

/-- The body of the outer loop of `abductive_explanation` for one observed
symptom (app.py lines 108-111). -/
def stepExpl (facts : List (Slug × Slug)) (m : List Entry) (s : Slug) : List Entry :=
  (explainingDiseases facts s).foldl (fun m' d => addExpl m' d s) m

/-- `abductive_explanation` (app.py lines 105-114). -/
def abductive_explanation (facts : List (Slug × Slug)) (symptoms : List Slug) :
    List Entry :=
  symptoms.foldl (stepExpl facts) []

/-- The sort relation of `sorted(..., key=lambda x: len(x[1]), reverse=True)`
(app.py line 118): `a` may precede `b` iff `b`'s matched set is no larger. -/
def rankRel (a b : Entry) : Prop := b.2.length ≤ a.2.length

instance : DecidableRel rankRel := fun a b => Nat.decLe _ _

instance : IsTotal Entry rankRel :=
  ⟨fun a b => Nat.le_total b.2.length a.2.length⟩

instance : IsTrans Entry rankRel :=
  ⟨fun _ _ _ hab hbc => le_trans hbc hab⟩

/-- The stable descending sort of app.py line 118 (Python's `sorted` is a
stable sort; insertion sort under `rankRel` is extensionally the same). -/
def rankExpl (m : List Entry) : List Entry :=
  List.insertionSort rankRel m

/-- `differential_diagnosis` (app.py lines 116-119). -/
def differential_diagnosis (facts : List (Slug × Slug)) (symptoms : List Slug) :
    List Entry :=
  rankExpl (abductive_explanation facts symptoms)

/-- Python `enumerate(l, n)`. -/
def pyEnumerate (n : Nat) : List α → List (Nat × α)
  | [] => []
  | x :: xs => (n, x) :: pyEnumerate (n + 1) xs

/-- The "most plausible" subsequence of `show_differential` (app.py line 137):
`[(i+1, d, s) for i, (d, s) in enumerate(ranked) if len(s) == len(symptoms)]`. -/
def fullyExplanatory (ranked : List Entry) (symptoms : List Slug) : List (Nat × Entry) :=
  (pyEnumerate 1 ranked).filter (fun t => decide (t.2.2.length = symptoms.length))

/-- The unexplained-symptom list of `show_differential` (app.py lines 149-150):
observed symptoms belonging to no ranked entry's matched set. -/
def unexplainedSyms (ranked : List Entry) (symptoms : List Slug) : List Slug :=
  symptoms.filter (fun s => decide (∀ p ∈ ranked, s ∉ p.2))

/-- The per-entry coverage percentage of `show_differential` (app.py line 133):
`100 * len(syms) / len(symptoms) if symptoms else 0`, over exact rationals. -/
def percentCov (matched : Nat) (symptoms : List Slug) : ℚ :=
  if symptoms.isEmpty then 0 else 100 * (matched : ℚ) / (symptoms.length : ℚ)

/-- First-occurrence deduplication (Python `dict.fromkeys`-style): the
distinct values of a list in first-encounter order. -/
def firstDedup [DecidableEq α] : List α → List α
  | [] => []
  | x :: xs => x :: (firstDedup xs).filter (fun y => decide (y ≠ x))

/-! ### Character-level facts used by the idempotence proof -/

theorem pyLower_of_isSlugChar {c : Char} (h : isSlugChar c = true) : pyLower c = c := by
  have h' := of_decide_eq_true h
  rw [pyLower, if_neg]
  omega

theorem not_isSpaceChar_of_isSlugChar {c : Char} (h : isSlugChar c = true) :
    isSpaceChar c = false := by
  have h' := of_decide_eq_true h
  apply decide_eq_false
  omega

theorem ne_colon_of_isSlugChar {c : Char} (h : isSlugChar c = true) : ¬(c = ':' ∨ c = ' ') := by
  rintro (rfl | rfl) <;> simp [isSlugChar] at h

theorem dropWhile_eq_self_of_all {p : Char → Bool} {l : List Char}
    (h : ∀ c ∈ l, p c = false) : l.dropWhile p = l := by
  cases l with
  | nil => rfl
  | cons c cs =>
      rw [List.dropWhile_cons, h c (List.mem_cons_self c cs)]
      simp

theorem pyStrip_eq_self_of_slugChars {l : List Char}
    (h : ∀ c ∈ l, isSlugChar c = true) : pyStrip l = l := by
  have h1 : l.dropWhile isSpaceChar = l :=
    dropWhile_eq_self_of_all (fun c hc => not_isSpaceChar_of_isSlugChar (h c hc))
  have h2 : l.reverse.dropWhile isSpaceChar = l.reverse :=
    dropWhile_eq_self_of_all
      (fun c hc => not_isSpaceChar_of_isSlugChar (h c (List.mem_reverse.mp hc)))
  rw [pyStrip, h1, h2, List.reverse_reverse]

theorem map_eq_self_of_mem {f : Char → Char} {l : List Char}
    (h : ∀ c ∈ l, f c = c) : l.map f = l := by
  induction l with
  | nil => rfl
  | cons c cs ih =>
      rw [List.map_cons, h c (List.mem_cons_self c cs),
        ih (fun x hx => h x (List.mem_cons_of_mem c hx))]

/-- Every character of a `slugify` output is in `[a-z0-9_]`. -/
theorem slugify_chars {text : List Char} : ∀ c ∈ slugify text, isSlugChar c = true := by
  intro c hc
  rw [slugify] at hc
  set t4 := (((if (List.map pyLower ((pyStrip text).take 5)) = umlsColon then
      (pyStrip text).drop 5 else pyStrip text).map
        (fun c => if c = ':' ∨ c = ' ' then '_' else c)).map pyLower).filter isSlugChar with ht4
  have hfilter : ∀ c ∈ t4, isSlugChar c = true := by
    intro x hx
    exact (List.mem_filter.mp hx).2
  by_cases hif : t4.take 5 = umlsUnd
  · rw [if_pos hif] at hc
    exact hfilter c hc
  · rw [if_neg hif] at hc
    rcases List.mem_append.mp hc with hu | hm
    · fin_cases hu <;> decide
    · exact hfilter c hm

/-- Every `slugify` output starts with the five characters `umls_`. -/
theorem slugify_take_five {text : List Char} : (slugify text).take 5 = umlsUnd := by
  rw [slugify]
  set t4 := (((if (List.map pyLower ((pyStrip text).take 5)) = umlsColon then
      (pyStrip text).drop 5 else pyStrip text).map
        (fun c => if c = ':' ∨ c = ' ' then '_' else c)).map pyLower).filter isSlugChar with ht4
  by_cases hif : t4.take 5 = umlsUnd
  · rw [if_pos hif]; exact hif
  · rw [if_neg hif]
    have hlen : umlsUnd.length = 5 := by decide
    calc (umlsUnd ++ t4).take 5 = (umlsUnd ++ t4).take umlsUnd.length := by rw [hlen]
      _ = umlsUnd := List.take_left umlsUnd t4

/-- C7 helper: `slugify` is the identity on its own outputs. -/
theorem slugify_of_clean {y : List Char} (hchars : ∀ c ∈ y, isSlugChar c = true)
    (htake : y.take 5 = umlsUnd) : slugify y = y := by
  have hstrip : pyStrip y = y := pyStrip_eq_self_of_slugChars hchars
  rw [slugify, hstrip]
  have htake5 : (y.take 5).map pyLower = umlsUnd := by
    rw [htake]; decide
  have hne : (y.take 5).map pyLower ≠ umlsColon := by
    rw [htake5]; decide
  rw [if_neg hne]
  have hmap1 : y.map (fun c => if c = ':' ∨ c = ' ' then '_' else c) = y :=
    map_eq_self_of_mem (fun c hc => if_neg (ne_colon_of_isSlugChar (hchars c hc)))
  have hmap2 : y.map pyLower = y :=
    map_eq_self_of_mem (fun c hc => pyLower_of_isSlugChar (hchars c hc))
  rw [hmap1, hmap2]
  have hfilter : y.filter isSlugChar = y := List.filter_eq_self.mpr hchars
  rw [hfilter, if_pos htake]

/-- C7: normalization is idempotent: `slugify (slugify x) = slugify x`. -/
theorem slugify_idempotent (x : List Char) : slugify (slugify x) = slugify x :=
  slugify_of_clean slugify_chars slugify_take_five

/-! ### Dict lemmas (label tables) -/

theorem find?_cons_eq (p : α → Bool) (a : α) (l : List α) :
    (a :: l).find? p = if p a then some a else l.find? p := by
  cases h : p a
  · rw [List.find?_cons_of_neg _ (by simp [h]), if_neg (by simp [h])]
  · rw [List.find?_cons_of_pos _ h, if_pos rfl]

theorem find?_key_map (m : List (Slug × List Char)) (k k' : Slug) (v : List Char) :
    (m.map (fun p => if p.1 = k then (p.1, v) else p)).find? (fun p => decide (p.1 = k')) =
      (m.find? (fun p => decide (p.1 = k'))).map (fun p => if p.1 = k then (p.1, v) else p) := by
  induction m with
  | nil => rfl
  | cons p m ih =>
      have hfst : (if p.1 = k then (p.1, v) else p).1 = p.1 := by
        by_cases hpk : p.1 = k <;> simp [hpk]
      rw [List.map_cons, find?_cons_eq, find?_cons_eq]
      simp only [hfst, ih]
      by_cases hp : p.1 = k'
      · simp [hp]
      · simp [hp]

theorem lookupDict_dictInsert (m : List (Slug × List Char)) (k k' : Slug) (v : List Char) :
    lookupDict (dictInsert m k v) k' = if k' = k then some v else lookupDict m k' := by
  rw [dictInsert]
  by_cases hany : m.any (fun p => decide (p.1 = k)) = true
  · rw [if_pos hany, lookupDict, find?_key_map, Option.map_map]
    by_cases hk : k' = k
    · subst hk
      obtain ⟨p, hpm, hpk⟩ := List.any_eq_true.mp hany
      cases hfind : m.find? (fun p => decide (p.1 = k')) with
      | none => exact absurd hpk (List.find?_eq_none.mp hfind p hpm)
      | some q =>
          have hq0 := List.find?_some hfind
          have hq1 : q.1 = k' := by simpa using hq0
          rw [if_pos rfl]
          simp [Function.comp_def, hq1]
    · rw [if_neg hk, lookupDict]
      cases hfind : m.find? (fun p => decide (p.1 = k')) with
      | none => rfl
      | some q =>
          have hq0 := List.find?_some hfind
          have hq1 : q.1 = k' := by simpa using hq0
          have hqk : ¬q.1 = k := by rw [hq1]; exact hk
          simp [Function.comp_def, hqk]
  · rw [if_neg hany, lookupDict, List.find?_append]
    have hanyf : m.any (fun p => decide (p.1 = k)) = false := Bool.eq_false_iff.mpr hany
    have hall : ∀ p ∈ m, p.1 ≠ k := by
      intro p hp
      simpa using List.any_eq_false.mp hanyf p hp
    by_cases hk : k' = k
    · subst hk
      have hnone : m.find? (fun p => decide (p.1 = k')) = none := by
        rw [List.find?_eq_none]
        intro p hp
        simpa using hall p hp
      rw [hnone, Option.none_or, if_pos rfl]
      simp
    · rw [if_neg hk]
      have hsingle : List.find? (fun p => decide (p.1 = k')) [(k, v)] = none := by
        rw [List.find?_eq_none]
        intro p hp
        simp only [List.mem_singleton] at hp
        subst hp
        simp only [decide_eq_true_iff]
        exact fun h => hk h.symm
      rw [hsingle, Option.or_none, lookupDict]

theorem lookupDict_foldl_dictInsert (pairs : List (Slug × List Char))
    (m0 : List (Slug × List Char)) (k : Slug) :
    lookupDict (pairs.foldl (fun m p => dictInsert m p.1 p.2) m0) k =
      match pairs.reverse.find? (fun p => decide (p.1 = k)) with
      | some p => some p.2
      | none => lookupDict m0 k := by
  induction pairs using List.reverseRecOn generalizing m0 with
  | nil => simp
  | append_singleton ps q ih =>
      rw [List.foldl_append, List.foldl_cons, List.foldl_nil, lookupDict_dictInsert,
        List.reverse_append, List.reverse_singleton, List.singleton_append, find?_cons_eq]
      by_cases hk : k = q.1
      · rw [if_pos hk, if_pos (decide_eq_true hk.symm)]
      · rw [if_neg hk, if_neg (by simpa using fun h => hk h.symm), ih]

theorem smap_loadField (d : Slug) (fields : List (List Char)) (kb : KB) :
    ((fields.foldl (loadField d) kb)).smap =
      (fields.map (fun f => ((slugify (pyStrip f) : Slug), pyStrip f))).foldl
        (fun m p => dictInsert m p.1 p.2) kb.smap := by
  induction fields generalizing kb with
  | nil => rfl
  | cons f fs ih =>
      rw [List.foldl_cons, List.map_cons, List.foldl_cons]
      have hsm : dictInsert kb.smap (slugify (pyStrip f)) (pyStrip f) =
          (loadField d kb f).smap := rfl
      rw [hsm]
      exact ih (loadField d kb f)

/-- The symptom label dict built by the loader is the fold of plain dict
assignments over the symptom `(slug, raw)` pairs in processing order. -/
theorem smap_load (records : List (List Char × List Char)) :
    (load_prolog_from_xlsx records).smap =
      (symptomPairs records).foldl (fun m p => dictInsert m p.1 p.2) [] := by
  suffices h : ∀ (recs : List (List Char × List Char)) (kb : KB),
      (recs.foldl loadRow kb).smap =
        (symptomPairs recs).foldl (fun m p => dictInsert m p.1 p.2) kb.smap by
    exact h records ⟨[], [], []⟩
  intro recs
  induction recs with
  | nil => intro kb; rfl
  | cons row rest ih =>
      intro kb
      rw [List.foldl_cons, ih]
      simp only [symptomPairs, List.flatMap_cons, List.foldl_append]
      congr 1
      rw [loadRow, smap_loadField]

/-- C3 (amended) helper: the label surviving in the symptom label dict for a
slug is the raw label of the last registration of that slug. -/
theorem lookupDict_smap_load (records : List (List Char × List Char)) (k : Slug) :
    lookupDict (load_prolog_from_xlsx records).smap k =
      ((symptomPairs records).reverse.find? (fun p => decide (p.1 = k))).map
        (fun p => p.2) := by
  rw [smap_load, lookupDict_foldl_dictInsert]
  cases (symptomPairs records).reverse.find? (fun p => decide (p.1 = k)) <;> rfl

/-! ### Concrete inputs for the corrected claims -/

/-- Records where two different raw labels normalize to the same slug. -/
def dupLabelRecs : List (List Char × List Char) :=
  [("D1".toList, "UMLS:C1_X".toList), ("D2".toList, "umls:c1_x".toList)]

/-- The records of spec Example 1. -/
def exampleRecs : List (List Char × List Char) :=
  [("Flu".toList, "UMLS:C0015967_fever, UMLS:C0010200_cough".toList),
   ("Cold".toList, "UMLS:C0010200_cough".toList)]

/-- The observed slugs of spec Example 1 (mentions `fever`, `cough`). -/
def exampleObs : List Slug :=
  extract_symptoms (load_prolog_from_xlsx exampleRecs).smap
    ["fever".toList, "cough".toList]

/-- One-fact knowledge base used for the duplicate-mention counterexample. -/
def dupFacts : List (Slug × Slug) := [("umls_d".toList, "umls_s".toList)]

/-- An observation sequence mentioning the same slug twice. -/
def dupObs : List Slug := ["umls_s".toList, "umls_s".toList]

/-- An observation sequence with a duplicated unknown slug. -/
def unexObs : List Slug := ["umls_x".toList, "umls_x".toList]

/-- C3 (counterexample): loading `D1 / UMLS:C1_X` then `D2 / umls:c1_x` — two
different raw labels with the same slug `umls_c1_x` — leaves the second
(last-seen) raw label in the symptom label table, not the first-seen one the
claim requires. -/
theorem c3_counterexample :
    slugify "UMLS:C1_X".toList = "umls_c1_x".toList ∧
    slugify "umls:c1_x".toList = "umls_c1_x".toList ∧
    lookupDict (load_prolog_from_xlsx dupLabelRecs).smap "umls_c1_x".toList =
      some "umls:c1_x".toList ∧
    ("umls:c1_x".toList : List Char) ≠ "UMLS:C1_X".toList := by
  decide

/-- C3 (amended): during build, later raw labels for the same slug overwrite
earlier ones: the label registered for a slug is the raw label of the last
record mention normalizing to it (`None` when the slug was never registered). -/
theorem c3_last_label_wins (records : List (List Char × List Char)) (k : Slug) :
    lookupDict (load_prolog_from_xlsx records).smap k =
      ((symptomPairs records).reverse.find? (fun p => decide (p.1 = k))).map
        (fun p => p.2) :=
  lookupDict_smap_load records k

/-- C9 (counterexample): on the Example 1 records and mentions, the top-ranked
disease slug is `umls_flu` (the Disease cell `Flu` contains no UMLS code), not
the `umls_c0015967_flu` the claim states; no entry carries that slug. -/
theorem c9_counterexample :
    ((differential_diagnosis (load_prolog_from_xlsx exampleRecs).facts
        exampleObs).head?).map (fun p => p.1) = some "umls_flu".toList ∧
    ("umls_flu".toList : List Char) ≠ "umls_c0015967_flu".toList ∧
    ∀ p ∈ differential_diagnosis (load_prolog_from_xlsx exampleRecs).facts
        exampleObs, p.1 ≠ "umls_c0015967_flu".toList := by
  decide

/-- C9 (amended): on the Example 1 records and mentions, ranking yields
exactly `umls_flu` explaining \x7bfever, cough\x7d then `umls_cold` explaining
\x7bcough\x7d; the fully-explanatory list holds the rank-1 entry only, and
nothing is unexplained. -/
theorem c9_example_pipeline :
    exampleObs = ["umls_c0015967_fever".toList, "umls_c0010200_cough".toList] ∧
    differential_diagnosis (load_prolog_from_xlsx exampleRecs).facts exampleObs =
      [("umls_flu".toList,
          ["umls_c0015967_fever".toList, "umls_c0010200_cough".toList]),
       ("umls_cold".toList, ["umls_c0010200_cough".toList])] ∧
    fullyExplanatory
        (differential_diagnosis (load_prolog_from_xlsx exampleRecs).facts exampleObs)
        exampleObs =
      [(1, ("umls_flu".toList,
          ["umls_c0015967_fever".toList, "umls_c0010200_cough".toList]))] ∧
    unexplainedSyms
        (differential_diagnosis (load_prolog_from_xlsx exampleRecs).facts exampleObs)
        exampleObs = [] := by
  decide

/-- C1 (counterexample): with facts `(d, s)` and observed `[s, s]`, the sole
ranked entry's matched set has size 1, equal to the distinct observed count 1,
yet the fully-explanatory list is empty — app.py line 137 compares against the
total mention count 2, not the distinct count. -/
theorem c1_counterexample :
    differential_diagnosis dupFacts dupObs = [("umls_d".toList, ["umls_s".toList])] ∧
    (firstDedup dupObs).length = 1 ∧
    (["umls_s".toList] : List Slug).length = 1 ∧
    fullyExplanatory (differential_diagnosis dupFacts dupObs) dupObs = [] := by
  decide

/-- C2 (counterexample): with an empty ranking and observed `[x, x]`, the
unexplained list repeats the duplicated slug — app.py line 150 keeps every
mention rather than reporting each distinct value once. -/
theorem c2_counterexample :
    differential_diagnosis ([] : List (Slug × Slug)) unexObs = [] ∧
    unexplainedSyms (differential_diagnosis ([] : List (Slug × Slug)) unexObs)
        unexObs = ["umls_x".toList, "umls_x".toList] ∧
    (["umls_x".toList, "umls_x".toList] : List Slug) ≠ ["umls_x".toList] := by
  decide

/-! ### Ranking lemmas -/

theorem filter_orderedInsert_len (k : Nat) (a : Entry) (l : List Entry) :
    (List.orderedInsert rankRel a l).filter (fun e => decide (e.2.length = k)) =
      if a.2.length = k then a :: l.filter (fun e => decide (e.2.length = k))
      else l.filter (fun e => decide (e.2.length = k)) := by
  induction l with
  | nil =>
      by_cases ha : a.2.length = k <;>
        simp [List.orderedInsert, List.filter_cons, ha]
  | cons b l ih =>
      simp only [List.orderedInsert]
      by_cases hr : rankRel a b
      · rw [if_pos hr]
        by_cases ha : a.2.length = k <;> by_cases hb : b.2.length = k <;>
          simp [List.filter_cons, ha, hb]
      · rw [if_neg hr]
        have hlt : a.2.length < b.2.length := Nat.lt_of_not_le hr
        by_cases ha : a.2.length = k
        · have hb : ¬b.2.length = k := by omega
          simp [List.filter_cons, hb, ih, ha]
        · simp [List.filter_cons, ih, ha]

theorem filter_rankExpl (m : List Entry) (k : Nat) :
    (rankExpl m).filter (fun e => decide (e.2.length = k)) =
      m.filter (fun e => decide (e.2.length = k)) := by
  induction m with
  | nil => rfl
  | cons a m ih =>
      rw [rankExpl, List.insertionSort]
      rw [show List.insertionSort rankRel m = rankExpl m from rfl] at *
      rw [filter_orderedInsert_len, List.filter_cons]
      by_cases ha : a.2.length = k
      · rw [if_pos ha, if_pos (by simpa using ha), ih]
      · rw [if_neg ha, if_neg (by simpa using ha), ih]

theorem rankExpl_desc (m : List Entry) (i : Nat) (a b : Entry)
    (ha : (rankExpl m).get? i = some a) (hb : (rankExpl m).get? (i + 1) = some b) :
    b.2.length ≤ a.2.length := by
  have hs : (rankExpl m).Sorted rankRel := List.sorted_insertionSort rankRel m
  obtain ⟨hi, hga⟩ := List.get?_eq_some.mp ha
  obtain ⟨hj, hgb⟩ := List.get?_eq_some.mp hb
  have hrel := hs.rel_get_of_lt (a := ⟨i, hi⟩) (b := ⟨i + 1, hj⟩) (by simp)
  rw [hga, hgb] at hrel
  exact hrel

theorem pyEnumerate_get? (l : List α) (n i : Nat) :
    (pyEnumerate n l).get? i = (l.get? i).map (fun e => (n + i, e)) := by
  induction l generalizing n i with
  | nil => simp [pyEnumerate]
  | cons x xs ih =>
      cases i with
      | zero => simp [pyEnumerate]
      | succ i =>
          simp only [pyEnumerate, List.get?_cons_succ]
          rw [ih (n + 1) i]
          cases xs.get? i <;> simp <;> omega

/-! ### Explanation-map lemmas -/

/-- Dict lookup on the explanation map. -/
def lookupExpl (m : List Entry) (d : Slug) : Option (List Slug) :=
  (m.find? (fun p => decide (p.1 = d))).map (fun p => p.2)

theorem find?_map_fst {β : Type} (m : List (Slug × β)) (k : Slug) (f : Slug × β → Slug × β)
    (hf : ∀ p, (f p).1 = p.1) :
    (m.map f).find? (fun p => decide (p.1 = k)) =
      (m.find? (fun p => decide (p.1 = k))).map f := by
  induction m with
  | nil => rfl
  | cons p m ih =>
      rw [List.map_cons, find?_cons_eq, find?_cons_eq, hf p]
      by_cases hp : p.1 = k
      · simp [hp]
      · simp [hp, ih]

theorem mem_insertOnce {l : List Slug} {s t : Slug} :
    t ∈ insertOnce l s ↔ t ∈ l ∨ t = s := by
  rw [insertOnce]
  by_cases h : s ∈ l
  · rw [if_pos h]
    constructor
    · exact Or.inl
    · rintro (ht | rfl)
      · exact ht
      · exact h
  · rw [if_neg h]
    simp [List.mem_append]

theorem self_mem_insertOnce (l : List Slug) (s : Slug) : s ∈ insertOnce l s :=
  mem_insertOnce.mpr (Or.inr rfl)

theorem insertOnce_idem (l : List Slug) (s : Slug) :
    insertOnce (insertOnce l s) s = insertOnce l s := by
  rw [insertOnce, if_pos (self_mem_insertOnce l s)]

theorem insertOnce_ne_nil (l : List Slug) (s : Slug) : insertOnce l s ≠ [] := by
  intro h
  exact absurd (h ▸ self_mem_insertOnce l s) (List.not_mem_nil s)

theorem insertOnce_nodup {l : List Slug} (s : Slug) (h : l.Nodup) :
    (insertOnce l s).Nodup := by
  rw [insertOnce]
  by_cases hs : s ∈ l
  · rw [if_pos hs]; exact h
  · rw [if_neg hs]
    exact (List.perm_append_singleton s l).nodup_iff.mpr (List.nodup_cons.mpr ⟨hs, h⟩)

theorem lookupExpl_addExpl (m : List Entry) (d d' s : Slug) :
    lookupExpl (addExpl m d s) d' =
      if d' = d then some (insertOnce ((lookupExpl m d).getD []) s)
      else lookupExpl m d' := by
  rw [addExpl]
  by_cases hany : m.any (fun p => decide (p.1 = d)) = true
  · rw [if_pos hany, lookupExpl,
      find?_map_fst _ _ _ (fun p => by by_cases hp : p.1 = d <;> simp [hp]),
      Option.map_map]
    by_cases hk : d' = d
    · subst hk
      obtain ⟨p, hpm, hpk⟩ := List.any_eq_true.mp hany
      cases hfind : m.find? (fun p => decide (p.1 = d')) with
      | none => exact absurd hpk (List.find?_eq_none.mp hfind p hpm)
      | some q =>
          have hq0 := List.find?_some hfind
          have hq1 : q.1 = d' := by simpa using hq0
          rw [if_pos rfl]
          simp [Function.comp_def, hq1, lookupExpl, hfind]
    · rw [if_neg hk, lookupExpl]
      cases hfind : m.find? (fun p => decide (p.1 = d')) with
      | none => rfl
      | some q =>
          have hq0 := List.find?_some hfind
          have hq1 : q.1 = d' := by simpa using hq0
          have hqk : ¬q.1 = d := by rw [hq1]; exact hk
          simp [Function.comp_def, hqk]
  · rw [if_neg hany]
    have hanyf : m.any (fun p => decide (p.1 = d)) = false := Bool.eq_false_iff.mpr hany
    have hall : ∀ p ∈ m, p.1 ≠ d := by
      intro p hp
      simpa using List.any_eq_false.mp hanyf p hp
    by_cases hk : d' = d
    · subst hk
      have hnone : m.find? (fun p => decide (p.1 = d')) = none := by
        rw [List.find?_eq_none]
        intro p hp
        simpa using hall p hp
      rw [lookupExpl, List.find?_append, hnone, Option.none_or, if_pos rfl, lookupExpl, hnone]
      simp [insertOnce]
    · rw [if_neg hk, lookupExpl, List.find?_append]
      have hsingle : List.find? (fun p => decide (p.1 = d')) [(d, [s])] = none := by
        rw [List.find?_eq_none]
        intro p hp
        simp only [List.mem_singleton] at hp
        subst hp
        simp only [decide_eq_true_iff]
        exact fun h => hk h.symm
      rw [hsingle, Option.or_none, lookupExpl]

theorem mem_explainingDiseases {facts : List (Slug × Slug)} {s d : Slug} :
    d ∈ explainingDiseases facts s ↔ (d, s) ∈ facts := by
  rw [explainingDiseases]
  constructor
  · intro h
    obtain ⟨p, hp, hpd⟩ := List.mem_map.mp h
    obtain ⟨hpf, hps⟩ := List.mem_filter.mp hp
    have hps' : p.2 = s := of_decide_eq_true hps
    have : p = (d, s) := by
      cases p
      simp only at hpd hps'
      rw [hpd, hps']
    exact this ▸ hpf
  · intro h
    exact List.mem_map.mpr ⟨(d, s), List.mem_filter.mpr ⟨h, by simp⟩, rfl⟩

theorem lookupExpl_foldl_addExpl (s : Slug) (ds : List Slug) (m : List Entry) (d : Slug) :
    lookupExpl (ds.foldl (fun m' d' => addExpl m' d' s) m) d =
      if d ∈ ds then some (insertOnce ((lookupExpl m d).getD []) s)
      else lookupExpl m d := by
  induction ds generalizing m with
  | nil => simp
  | cons d0 ds ih =>
      rw [List.foldl_cons, ih]
      by_cases hmem : d ∈ ds
      · rw [if_pos hmem, if_pos (List.mem_cons_of_mem d0 hmem), lookupExpl_addExpl]
        by_cases hd : d = d0
        · rw [if_pos hd, Option.getD_some, insertOnce_idem]
          rw [hd]
        · rw [if_neg hd]
      · rw [if_neg hmem, lookupExpl_addExpl]
        by_cases hd : d = d0
        · rw [if_pos hd, if_pos (by rw [hd]; exact List.mem_cons_self d0 ds), hd]
        · rw [if_neg hd, if_neg (by simp [hd, hmem])]

theorem lookupExpl_stepExpl (facts : List (Slug × Slug)) (m : List Entry) (s d : Slug) :
    lookupExpl (stepExpl facts m s) d =
      if (d, s) ∈ facts then some (insertOnce ((lookupExpl m d).getD []) s)
      else lookupExpl m d := by
  rw [stepExpl, lookupExpl_foldl_addExpl]
  exact if_congr mem_explainingDiseases rfl rfl

/-- The per-disease trace of `abductive_explanation`: fold the observed
symptoms, extending the optional matched set at each fact hit. -/
def accumExpl (facts : List (Slug × Slug)) (d : Slug) (obs : List Slug)
    (o : Option (List Slug)) : Option (List Slug) :=
  obs.foldl
    (fun acc s => if (d, s) ∈ facts then some (insertOnce (acc.getD []) s) else acc) o

theorem lookupExpl_foldl_stepExpl (facts : List (Slug × Slug)) (obs : List Slug)
    (m : List Entry) (d : Slug) :
    lookupExpl (obs.foldl (stepExpl facts) m) d =
      accumExpl facts d obs (lookupExpl m d) := by
  induction obs generalizing m with
  | nil => rfl
  | cons s obs ih =>
      rw [List.foldl_cons, ih, lookupExpl_stepExpl]
      rfl

theorem lookupExpl_abduce (facts : List (Slug × Slug)) (obs : List Slug) (d : Slug) :
    lookupExpl (abductive_explanation facts obs) d = accumExpl facts d obs none :=
  lookupExpl_foldl_stepExpl facts obs [] d

theorem accumExpl_some_ne_none (facts : List (Slug × Slug)) (d : Slug) (obs : List Slug)
    (l : List Slug) : accumExpl facts d obs (some l) ≠ none := by
  induction obs generalizing l with
  | nil => simp [accumExpl]
  | cons s obs ih =>
      rw [accumExpl, List.foldl_cons]
      by_cases h : (d, s) ∈ facts
      · rw [if_pos h]; exact ih _
      · rw [if_neg h]; exact ih l

theorem accumExpl_none_iff (facts : List (Slug × Slug)) (d : Slug) (obs : List Slug) :
    accumExpl facts d obs none = none ↔ ∀ s ∈ obs, (d, s) ∉ facts := by
  induction obs with
  | nil => simp [accumExpl]
  | cons s obs ih =>
      rw [accumExpl, List.foldl_cons]
      by_cases h : (d, s) ∈ facts
      · rw [if_pos h, Option.getD_none]
        apply iff_of_false
        · exact accumExpl_some_ne_none facts d obs (insertOnce [] s)
        · intro hall
          exact hall s (List.mem_cons_self s obs) h
      · rw [if_neg h]
        rw [show (List.foldl (fun acc s =>
            if (d, s) ∈ facts then some (insertOnce (acc.getD []) s) else acc) none obs) =
          accumExpl facts d obs none from rfl, ih]
        constructor
        · intro hall t ht
          rcases List.mem_cons.mp ht with rfl | ht'
          · exact h
          · exact hall t ht'
        · intro hall t ht
          exact hall t (List.mem_cons_of_mem s ht)

theorem accumExpl_some_spec (facts : List (Slug × Slug)) (d : Slug) :
    ∀ (obs : List Slug) (o : Option (List Slug)),
      (∀ l0, o = some l0 → l0.Nodup ∧ l0 ≠ []) →
      ∀ l, accumExpl facts d obs o = some l →
        l.Nodup ∧ l ≠ [] ∧
          ∀ t, t ∈ l ↔
            ((∃ l0, o = some l0 ∧ t ∈ l0) ∨ (t ∈ obs ∧ (d, t) ∈ facts)) := by
  intro obs
  induction obs with
  | nil =>
      intro o ho l hl
      rw [accumExpl, List.foldl_nil] at hl
      subst hl
      obtain ⟨hnd, hne⟩ := ho l rfl
      refine ⟨hnd, hne, fun t => ⟨fun ht => Or.inl ⟨l, rfl, ht⟩, ?_⟩⟩
      rintro (⟨l0, h0, ht⟩ | ⟨ht, _⟩)
      · injection h0 with h0
        exact h0 ▸ ht
      · exact absurd ht (List.not_mem_nil t)
  | cons s obs ih =>
      intro o ho l hl
      rw [accumExpl, List.foldl_cons] at hl
      by_cases h : (d, s) ∈ facts
      · rw [if_pos h] at hl
        have hgd : (o.getD []).Nodup := by
          cases o with
          | none => exact List.nodup_nil
          | some l0 => exact (ho l0 rfl).1
        have ho' : ∀ l0, (some (insertOnce (o.getD []) s) : Option (List Slug)) = some l0 →
            l0.Nodup ∧ l0 ≠ [] := by
          intro l0 h0
          injection h0 with h0
          exact h0 ▸ ⟨insertOnce_nodup s hgd, insertOnce_ne_nil _ _⟩
        obtain ⟨hnd, hne, hmem⟩ := ih _ ho' l hl
        refine ⟨hnd, hne, fun t => ?_⟩
        rw [hmem t]
        constructor
        · rintro (⟨l0, h0, ht⟩ | ⟨ht, hf⟩)
          · injection h0 with h0
            rcases mem_insertOnce.mp (h0 ▸ ht) with ht' | rfl
            · cases o with
              | none => exact absurd ht' (List.not_mem_nil t)
              | some l1 => exact Or.inl ⟨l1, rfl, ht'⟩
            · exact Or.inr ⟨List.mem_cons_self t obs, h⟩
          · exact Or.inr ⟨List.mem_cons_of_mem s ht, hf⟩
        · rintro (⟨l0, h0, ht⟩ | ⟨ht, hf⟩)
          · refine Or.inl ⟨insertOnce (o.getD []) s, rfl, mem_insertOnce.mpr (Or.inl ?_)⟩
            rw [h0, Option.getD_some]
            exact ht
          · rcases List.mem_cons.mp ht with rfl | ht'
            · exact Or.inl ⟨_, rfl, self_mem_insertOnce _ _⟩
            · exact Or.inr ⟨ht', hf⟩
      · rw [if_neg h] at hl
        obtain ⟨hnd, hne, hmem⟩ := ih o ho l hl
        refine ⟨hnd, hne, fun t => ?_⟩
        rw [hmem t]
        constructor
        · rintro (hx | ⟨ht, hf⟩)
          · exact Or.inl hx
          · exact Or.inr ⟨List.mem_cons_of_mem s ht, hf⟩
        · rintro (hx | ⟨ht, hf⟩)
          · exact Or.inl hx
          · rcases List.mem_cons.mp ht with rfl | ht'
            · exact absurd hf h
            · exact Or.inr ⟨ht', hf⟩

theorem keysNodup_addExpl (m : List Entry) (d s : Slug)
    (h : (m.map (fun p => p.1)).Nodup) :
    ((addExpl m d s).map (fun p => p.1)).Nodup := by
  rw [addExpl]
  by_cases hany : m.any (fun p => decide (p.1 = d)) = true
  · rw [if_pos hany, List.map_map]
    have hcomp : ((fun p : Entry => p.1) ∘
        (fun p : Entry => if p.1 = d then (p.1, insertOnce p.2 s) else p)) =
        fun p : Entry => p.1 := by
      funext p
      by_cases hp : p.1 = d <;> simp [hp]
    rw [hcomp]
    exact h
  · rw [if_neg hany, List.map_append]
    have hd : d ∉ m.map (fun p => p.1) := by
      intro hdm
      obtain ⟨p, hp, hp1⟩ := List.mem_map.mp hdm
      have := List.any_eq_false.mp (Bool.eq_false_iff.mpr hany) p hp
      simp [hp1] at this
    have hperm : List.Perm ((m.map (fun p => p.1)) ++ [d]) (d :: m.map (fun p => p.1)) :=
      List.perm_append_singleton _ _
    exact hperm.nodup_iff.mpr (List.nodup_cons.mpr ⟨hd, h⟩)

theorem keysNodup_foldl_addExpl (s : Slug) (ds : List Slug) (m : List Entry)
    (h : (m.map (fun p => p.1)).Nodup) :
    ((ds.foldl (fun m' d' => addExpl m' d' s) m).map (fun p => p.1)).Nodup := by
  induction ds generalizing m with
  | nil => exact h
  | cons d0 ds ih =>
      rw [List.foldl_cons]
      exact ih _ (keysNodup_addExpl m d0 s h)

theorem keysNodup_abduce (facts : List (Slug × Slug)) (obs : List Slug) :
    ((abductive_explanation facts obs).map (fun p => p.1)).Nodup := by
  suffices haux : ∀ (l : List Slug) (m : List Entry), (m.map (fun p => p.1)).Nodup →
      ((l.foldl (stepExpl facts) m).map (fun p => p.1)).Nodup by
    exact haux obs [] List.nodup_nil
  intro l
  induction l with
  | nil => exact fun m h => h
  | cons s l ih =>
      intro m h
      rw [List.foldl_cons]
      exact ih _ (keysNodup_foldl_addExpl s _ m h)

theorem mem_iff_lookupExpl {m : List Entry} (h : (m.map (fun p => p.1)).Nodup)
    (d : Slug) (l : List Slug) : (d, l) ∈ m ↔ lookupExpl m d = some l := by
  induction m with
  | nil => simp [lookupExpl]
  | cons p m ih =>
      rw [List.map_cons, List.nodup_cons] at h
      obtain ⟨hp1, hm⟩ := h
      rw [lookupExpl, find?_cons_eq]
      by_cases hpd : p.1 = d
      · rw [if_pos (by simpa using hpd), Option.map_some']
        constructor
        · intro hmem
          rcases List.mem_cons.mp hmem with heq | hmem'
          · rw [← heq]
          · exact absurd (List.mem_map.mpr ⟨(d, l), hmem', rfl⟩) (hpd ▸ hp1)
        · intro heq
          injection heq with heq
          have : p = (d, l) := by
            cases p
            simp only at hpd heq
            rw [hpd, heq]
          exact this ▸ List.mem_cons_self p m
      · rw [if_neg (by simpa using hpd)]
        rw [show ((m.find? fun q => decide (q.1 = d)).map fun q => q.2) =
          lookupExpl m d from rfl, ← ih hm]
        constructor
        · intro hmem
          rcases List.mem_cons.mp hmem with heq | hmem'
          · exact absurd (congrArg Prod.fst heq.symm) hpd
          · exact hmem'
        · exact List.mem_cons_of_mem p

/-! ### Duplicate observations are no-ops (covered-symptom machinery) -/

/-- Disease `d` already has an entry, and every entry with key `d` contains
`s` in its matched set. -/
def hasCov (m : List Entry) (d s : Slug) : Prop :=
  (∃ p ∈ m, p.1 = d) ∧ ∀ p ∈ m, p.1 = d → s ∈ p.2

/-- Every disease that explains `s` is covered for `s` in the map. -/
def covS (facts : List (Slug × Slug)) (m : List Entry) (s : Slug) : Prop :=
  ∀ d, (d, s) ∈ facts → hasCov m d s

theorem map_eq_self_of_forall {α : Type} {f : α → α} {l : List α}
    (h : ∀ a ∈ l, f a = a) : l.map f = l := by
  induction l with
  | nil => rfl
  | cons a l ih =>
      rw [List.map_cons, h a (List.mem_cons_self a l),
        ih (fun x hx => h x (List.mem_cons_of_mem a hx))]

theorem hasCov_addExpl_preserve {m : List Entry} {d s : Slug} (d' s' : Slug)
    (h : hasCov m d s) : hasCov (addExpl m d' s') d s := by
  obtain ⟨⟨p0, hp0, hp01⟩, hall⟩ := h
  rw [addExpl]
  by_cases hany : m.any (fun p => decide (p.1 = d')) = true
  · rw [if_pos hany]
    constructor
    · refine ⟨if p0.1 = d' then (p0.1, insertOnce p0.2 s') else p0,
        List.mem_map.mpr ⟨p0, hp0, rfl⟩, ?_⟩
      by_cases hpd : p0.1 = d'
      · rw [if_pos hpd]; exact hp01
      · rw [if_neg hpd]; exact hp01
    · intro q hq hq1
      obtain ⟨p, hp, hpq⟩ := List.mem_map.mp hq
      by_cases hpd : p.1 = d'
      · rw [if_pos hpd] at hpq
        have hp1 : p.1 = d := by rw [← hpq] at hq1; exact hq1
        rw [← hpq]
        exact mem_insertOnce.mpr (Or.inl (hall p hp hp1))
      · rw [if_neg hpd] at hpq
        exact hpq ▸ hall p hp (hpq ▸ hq1)
  · rw [if_neg hany]
    have hnot : ∀ p ∈ m, p.1 ≠ d' := by
      intro p hp
      simpa using List.any_eq_false.mp (Bool.eq_false_iff.mpr hany) p hp
    constructor
    · exact ⟨p0, List.mem_append_left _ hp0, hp01⟩
    · intro q hq hq1
      rcases List.mem_append.mp hq with hqm | hqs
      · exact hall q hqm hq1
      · rw [List.mem_singleton] at hqs
        subst hqs
        simp only at hq1
        exact absurd (hq1 ▸ hp01 : p0.1 = d') (hnot p0 hp0)

theorem hasCov_addExpl_self (m : List Entry) (d s : Slug) :
    hasCov (addExpl m d s) d s := by
  rw [addExpl]
  by_cases hany : m.any (fun p => decide (p.1 = d)) = true
  · rw [if_pos hany]
    obtain ⟨p0, hp0, hp01⟩ := List.any_eq_true.mp hany
    have hp01' : p0.1 = d := of_decide_eq_true hp01
    constructor
    · refine ⟨if p0.1 = d then (p0.1, insertOnce p0.2 s) else p0,
        List.mem_map.mpr ⟨p0, hp0, rfl⟩, ?_⟩
      simp [hp01']
    · intro q hq hq1
      obtain ⟨p, hp, hpq⟩ := List.mem_map.mp hq
      by_cases hpd : p.1 = d
      · rw [if_pos hpd] at hpq
        rw [← hpq]
        exact self_mem_insertOnce _ _
      · rw [if_neg hpd] at hpq
        exact absurd (hpq ▸ hq1) hpd
  · rw [if_neg hany]
    have hnot : ∀ p ∈ m, p.1 ≠ d := by
      intro p hp
      simpa using List.any_eq_false.mp (Bool.eq_false_iff.mpr hany) p hp
    constructor
    · exact ⟨(d, [s]), List.mem_append_right _ (List.mem_singleton_self _), rfl⟩
    · intro q hq hq1
      rcases List.mem_append.mp hq with hqm | hqs
      · exact absurd hq1 (hnot q hqm)
      · rw [List.mem_singleton] at hqs
        subst hqs
        exact List.mem_singleton_self s

theorem hasCov_foldl_addExpl {m : List Entry} {d s : Slug} (s' : Slug) (ds : List Slug)
    (h : hasCov m d s) :
    hasCov (ds.foldl (fun m' d' => addExpl m' d' s') m) d s := by
  induction ds generalizing m with
  | nil => exact h
  | cons d0 ds ih => exact ih (hasCov_addExpl_preserve d0 s' h)

theorem hasCov_of_mem_foldl_addExpl (s : Slug) (ds : List Slug) :
    ∀ (m : List Entry) (d0 : Slug), d0 ∈ ds →
      hasCov (ds.foldl (fun m' d' => addExpl m' d' s) m) d0 s := by
  induction ds with
  | nil =>
      intro m d0 hd0
      exact absurd hd0 (List.not_mem_nil d0)
  | cons d1 ds ih =>
      intro m d0 hd0
      rw [List.foldl_cons]
      rcases List.mem_cons.mp hd0 with rfl | hd0'
      · exact hasCov_foldl_addExpl s ds (hasCov_addExpl_self m d0 s)
      · exact ih _ d0 hd0'

theorem covS_stepExpl_self (facts : List (Slug × Slug)) (m : List Entry) (s : Slug) :
    covS facts (stepExpl facts m s) s := by
  intro d hd
  exact hasCov_of_mem_foldl_addExpl s _ m d (mem_explainingDiseases.mpr hd)

theorem covS_stepExpl_preserve {facts : List (Slug × Slug)} {m : List Entry} {s : Slug}
    (s' : Slug) (h : covS facts m s) : covS facts (stepExpl facts m s') s := by
  intro d hd
  exact hasCov_foldl_addExpl s' _ (h d hd)

theorem addExpl_eq_of_hasCov {m : List Entry} {d s : Slug} (h : hasCov m d s) :
    addExpl m d s = m := by
  obtain ⟨⟨p0, hp0, hp01⟩, hall⟩ := h
  rw [addExpl, if_pos (List.any_eq_true.mpr ⟨p0, hp0, decide_eq_true hp01⟩)]
  apply map_eq_self_of_forall
  intro p hp
  by_cases hpd : p.1 = d
  · rw [if_pos hpd, insertOnce, if_pos (hall p hp hpd)]
  · rw [if_neg hpd]

theorem foldl_addExpl_eq_of_hasCov {m : List Entry} {s : Slug} (ds : List Slug)
    (h : ∀ d ∈ ds, hasCov m d s) :
    ds.foldl (fun m' d' => addExpl m' d' s) m = m := by
  induction ds with
  | nil => rfl
  | cons d0 ds ih =>
      rw [List.foldl_cons, addExpl_eq_of_hasCov (h d0 (List.mem_cons_self d0 ds))]
      exact ih (fun d hd => h d (List.mem_cons_of_mem d0 hd))

theorem stepExpl_eq_of_covS {facts : List (Slug × Slug)} {m : List Entry} {s : Slug}
    (h : covS facts m s) : stepExpl facts m s = m := by
  rw [stepExpl]
  exact foldl_addExpl_eq_of_hasCov _ (fun d hd => h d (mem_explainingDiseases.mp hd))

theorem foldl_stepExpl_filter {facts : List (Slug × Slug)} (l : List Slug)
    {m : List Entry} {x : Slug} (h : covS facts m x) :
    l.foldl (stepExpl facts) m =
      (l.filter (fun y => decide (y ≠ x))).foldl (stepExpl facts) m := by
  induction l generalizing m with
  | nil => rfl
  | cons y l ih =>
      rw [List.filter_cons]
      by_cases hy : y = x
      · rw [if_neg (by simp [hy]), List.foldl_cons, hy, stepExpl_eq_of_covS h]
        exact ih h
      · rw [if_pos (by simpa using hy), List.foldl_cons, List.foldl_cons]
        exact ih (covS_stepExpl_preserve y h)

/-! ### First-occurrence deduplication lemmas -/

theorem mem_firstDedup [DecidableEq α] {l : List α} {t : α} :
    t ∈ firstDedup l ↔ t ∈ l := by
  induction l with
  | nil => rfl
  | cons x xs ih =>
      rw [firstDedup]
      by_cases ht : t = x
      · subst ht
        simp
      · simp only [List.mem_cons, List.mem_filter, ih, decide_eq_true_iff]
        constructor
        · rintro (rfl | ⟨hmem, _⟩)
          · exact Or.inl rfl
          · exact Or.inr hmem
        · rintro (rfl | hmem)
          · exact Or.inl rfl
          · exact Or.inr ⟨hmem, ht⟩

theorem nodup_firstDedup [DecidableEq α] (l : List α) : (firstDedup l).Nodup := by
  induction l with
  | nil => exact List.nodup_nil
  | cons x xs ih =>
      rw [firstDedup, List.nodup_cons]
      constructor
      · intro hx
        have := (List.mem_filter.mp hx).2
        simp at this
      · exact List.Nodup.filter _ ih

theorem length_firstDedup_le [DecidableEq α] (l : List α) :
    (firstDedup l).length ≤ l.length := by
  induction l with
  | nil => exact Nat.le_refl 0
  | cons x xs ih =>
      rw [firstDedup, List.length_cons, List.length_cons]
      exact Nat.succ_le_succ (Nat.le_trans (List.length_filter_le _ _) ih)

theorem length_filter_ne_lt {α : Type u} [DecidableEq α] {l : List α} {a : α} (h : a ∈ l) :
    (l.filter (fun y => decide (y ≠ a))).length < l.length := by
  induction l with
  | nil => exact absurd h (List.not_mem_nil a)
  | cons x xs ih =>
      rw [List.filter_cons, List.length_cons]
      by_cases hx : x = a
      · rw [if_neg (by simp [hx])]
        exact Nat.lt_succ_of_le (List.length_filter_le _ _)
      · rw [if_pos (by simpa using hx), List.length_cons]
        have h' : a ∈ xs := by
          rcases List.mem_cons.mp h with heq | h'
          · exact absurd heq.symm hx
          · exact h'
        exact Nat.succ_lt_succ (ih h')

theorem length_firstDedup_lt_of_not_nodup [DecidableEq α] {l : List α}
    (h : ¬l.Nodup) : (firstDedup l).length < l.length := by
  induction l with
  | nil => exact absurd List.nodup_nil h
  | cons x xs ih =>
      rw [firstDedup, List.length_cons, List.length_cons]
      by_cases hx : x ∈ xs
      · have hxfd : x ∈ firstDedup xs := mem_firstDedup.mpr hx
        have hlt : ((firstDedup xs).filter (fun y => decide (y ≠ x))).length <
            (firstDedup xs).length := length_filter_ne_lt hxfd
        exact Nat.succ_lt_succ (Nat.lt_of_lt_of_le hlt (length_firstDedup_le xs))
      · have hxs : ¬xs.Nodup := by
          intro hnd
          exact h (List.nodup_cons.mpr ⟨hx, hnd⟩)
        have hfd : (firstDedup xs).filter (fun y => decide (y ≠ x)) = firstDedup xs := by
          rw [List.filter_eq_self]
          intro y hy
          have hyxs : y ∈ xs := mem_firstDedup.mp hy
          simp only [decide_eq_true_iff]
          intro heq
          exact hx (heq ▸ hyxs)
        rw [hfd]
        exact Nat.succ_lt_succ (ih hxs)

theorem firstDedup_filter [DecidableEq α] (p : α → Bool) (l : List α) :
    firstDedup (l.filter p) = (firstDedup l).filter p := by
  induction l with
  | nil => rfl
  | cons x xs ih =>
      rw [List.filter_cons, firstDedup]
      by_cases hp : p x = true
      · rw [if_pos hp, firstDedup, ih, List.filter_cons, if_pos hp,
          List.filter_filter, List.filter_filter]
        congr 1
        exact List.filter_congr (fun y _ => Bool.and_comm (decide (y ≠ x)) (p y))
      · rw [if_neg hp, ih, List.filter_cons, if_neg hp, List.filter_filter]
        refine List.filter_congr ?_
        intro y _
        cases hpy : p y with
        | false => simp [hpy]
        | true =>
            have hyx : y ≠ x := fun heq => hp (heq ▸ hpy)
            simp [hpy, hyx]

/-- Processing the observations or their first-occurrence deduplication
produces the same explanation map (fuel-indexed induction). -/
theorem foldl_stepExpl_firstDedup_aux (facts : List (Slug × Slug)) :
    ∀ (n : Nat) (l : List Slug) (m : List Entry), l.length ≤ n →
      l.foldl (stepExpl facts) m = (firstDedup l).foldl (stepExpl facts) m := by
  intro n
  induction n with
  | zero =>
      intro l m hl
      rw [Nat.le_zero] at hl
      rw [List.length_eq_zero.mp hl]
      rfl
  | succ n ih =>
      intro l m hl
      cases l with
      | nil => rfl
      | cons x xs =>
          rw [firstDedup, List.foldl_cons, List.foldl_cons, ← firstDedup_filter,
            ← ih (xs.filter (fun y => decide (y ≠ x))) (stepExpl facts m x)
              (Nat.le_trans (List.length_filter_le _ _)
                (Nat.le_of_succ_le_succ hl))]
          exact foldl_stepExpl_filter xs (covS_stepExpl_self facts m x)

theorem abduce_firstDedup (facts : List (Slug × Slug)) (obs : List Slug) :
    abductive_explanation facts obs = abductive_explanation facts (firstDedup obs) :=
  foldl_stepExpl_firstDedup_aux facts obs.length obs [] (Nat.le_refl _)

/-! ### Helpers for the claim theorems -/

theorem abduce_entry_spec (facts : List (Slug × Slug)) (obs : List Slug) {d : Slug}
    {l : List Slug} (h : (d, l) ∈ abductive_explanation facts obs) :
    l.Nodup ∧ l ≠ [] ∧ ∀ t, t ∈ l ↔ (t ∈ obs ∧ (d, t) ∈ facts) := by
  have hkeys := keysNodup_abduce facts obs
  have hlook := (mem_iff_lookupExpl hkeys d l).mp h
  rw [lookupExpl_abduce] at hlook
  obtain ⟨hnd, hne, hmem⟩ :=
    accumExpl_some_spec facts d obs none (by intro l0 h0; cases h0) l hlook
  refine ⟨hnd, hne, fun t => ?_⟩
  rw [hmem t]
  constructor
  · rintro (⟨l0, h0, _⟩ | hin)
    · cases h0
    · exact hin
  · exact Or.inr

theorem abduce_key_iff (facts : List (Slug × Slug)) (obs : List Slug) (d : Slug) :
    (∃ l, (d, l) ∈ abductive_explanation facts obs) ↔ ∃ s ∈ obs, (d, s) ∈ facts := by
  have hkeys := keysNodup_abduce facts obs
  constructor
  · rintro ⟨l, hl⟩
    have hlook := (mem_iff_lookupExpl hkeys d l).mp hl
    rw [lookupExpl_abduce] at hlook
    by_contra hno
    push_neg at hno
    rw [(accumExpl_none_iff facts d obs).mpr hno] at hlook
    cases hlook
  · rintro ⟨s, hs, hf⟩
    cases hacc : accumExpl facts d obs none with
    | none => exact absurd hf ((accumExpl_none_iff facts d obs).mp hacc s hs)
    | some l =>
        refine ⟨l, (mem_iff_lookupExpl hkeys d l).mpr ?_⟩
        rw [lookupExpl_abduce, hacc]

theorem mem_differential_iff (facts : List (Slug × Slug)) (obs : List Slug) (p : Entry) :
    p ∈ differential_diagnosis facts obs ↔ p ∈ abductive_explanation facts obs :=
  (List.perm_insertionSort rankRel (abductive_explanation facts obs)).mem_iff

theorem entry_length_le_firstDedup (facts : List (Slug × Slug)) (obs : List Slug)
    {d : Slug} {l : List Slug} (h : (d, l) ∈ abductive_explanation facts obs) :
    l.length ≤ (firstDedup obs).length := by
  obtain ⟨hnd, _, hmem⟩ := abduce_entry_spec facts obs h
  have hsub : l ⊆ firstDedup obs :=
    fun t ht => mem_firstDedup.mpr ((hmem t).mp ht).1
  exact (hnd.subperm hsub).length_le

theorem percentCov_lt_100 {k : Nat} {obs : List Slug} (h : k < obs.length) :
    percentCov k obs < 100 := by
  have hne : ¬obs.isEmpty = true := by
    cases obs with
    | nil => simp at h
    | cons x xs => simp
  rw [percentCov, if_neg hne]
  have hl : (0 : ℚ) < (obs.length : ℚ) := by
    exact_mod_cast Nat.lt_of_le_of_lt (Nat.zero_le k) h
  rw [div_lt_iff hl]
  have hk : (k : ℚ) < (obs.length : ℚ) := by exact_mod_cast h
  calc 100 * (k : ℚ) < 100 * (obs.length : ℚ) := by
        exact (mul_lt_mul_left (by norm_num)).mpr hk
    _ = 100 * (obs.length : ℚ) := rfl

theorem mem_pyEnumerate_iff {α : Type} (l : List α) (n : Nat) (t : Nat × α) :
    t ∈ pyEnumerate n l ↔ n ≤ t.1 ∧ l.get? (t.1 - n) = some t.2 := by
  induction l generalizing n with
  | nil => simp [pyEnumerate]
  | cons x xs ih =>
      rw [pyEnumerate, List.mem_cons]
      constructor
      · rintro (rfl | h)
        · simp
        · obtain ⟨h1, h2⟩ := (ih (n + 1)).mp h
          refine ⟨Nat.le_trans (Nat.le_succ n) h1, ?_⟩
          have hsub : t.1 - n = (t.1 - (n + 1)) + 1 := by omega
          rw [hsub, List.get?_cons_succ]
          exact h2
      · rintro ⟨h1, h2⟩
        by_cases hn : t.1 = n
        · left
          rw [hn, Nat.sub_self, List.get?_cons_zero] at h2
          injection h2 with h2
          obtain ⟨t1, t2⟩ := t
          simp only at hn h2
          rw [hn, h2]
        · right
          apply (ih (n + 1)).mpr
          refine ⟨by omega, ?_⟩
          have hsub : t.1 - n = (t.1 - (n + 1)) + 1 := by omega
          rw [hsub, List.get?_cons_succ] at h2
          exact h2

/-! ### Claim theorems -/

/-- C1 (amended): an entry appears in the fully-explanatory subsequence iff
its matched-symptom set's size equals the LENGTH of the observed sequence
(total mentions, duplicates included — not the distinct count), and each
entry `(r, e)` preserves its rank: `e` sits at position `r - 1` of the full
ranking with `r ≥ 1`. -/
theorem c1_fully_explanatory_iff (facts : List (Slug × Slug)) (obs : List Slug)
    (r : Nat) (e : Entry) :
    (r, e) ∈ fullyExplanatory (differential_diagnosis facts obs) obs ↔
      1 ≤ r ∧ (differential_diagnosis facts obs).get? (r - 1) = some e ∧
        e.2.length = obs.length := by
  rw [fullyExplanatory, List.mem_filter, mem_pyEnumerate_iff]
  simp only [decide_eq_true_iff]
  constructor
  · rintro ⟨⟨h1, h2⟩, h3⟩
    exact ⟨h1, h2, h3⟩
  · rintro ⟨h1, h2, h3⟩
    exact ⟨⟨h1, h2⟩, h3⟩

/-- Facts and observations exercising the fully-explanatory membership. -/
def fullFacts : List (Slug × Slug) := [("umls_d".toList, "umls_s".toList)]

theorem c1_witness :
    (1, (("umls_d".toList : Slug), ["umls_s".toList])) ∈
      fullyExplanatory (differential_diagnosis fullFacts ["umls_s".toList])
        ["umls_s".toList] :=
  (c1_fully_explanatory_iff fullFacts ["umls_s".toList] 1
    ("umls_d".toList, ["umls_s".toList])).mpr (by decide)

/-- C2 (amended): the unexplained list holds exactly the observed symptoms in
no ranked entry's matched set, in original observation order (a sublist of the
observations), with duplicate mentions each reported (multiplicity preserved),
not collapsed to one occurrence per distinct value. -/
theorem c2_unexplained_spec (ranked : List Entry) (symptoms : List Slug) (s : Slug) :
    (s ∈ unexplainedSyms ranked symptoms ↔
      s ∈ symptoms ∧ ∀ p ∈ ranked, s ∉ p.2) ∧
    List.Sublist (unexplainedSyms ranked symptoms) symptoms ∧
    (s ∈ unexplainedSyms ranked symptoms →
      (unexplainedSyms ranked symptoms).count s = symptoms.count s) := by
  refine ⟨?_, List.filter_sublist symptoms, ?_⟩
  · rw [unexplainedSyms, List.mem_filter, decide_eq_true_iff]
  · intro hs
    have hps := (List.mem_filter.mp hs).2
    rw [unexplainedSyms]
    exact List.count_filter hps

theorem c2_witness :
    ("umls_x".toList : Slug) ∈ unexplainedSyms [] ["umls_x".toList] ∧
    (unexplainedSyms ([] : List Entry) ["umls_x".toList]).count "umls_x".toList =
      (["umls_x".toList] : List Slug).count "umls_x".toList := by
  have hmem : ("umls_x".toList : Slug) ∈ unexplainedSyms [] ["umls_x".toList] :=
    (c2_unexplained_spec [] ["umls_x".toList] "umls_x".toList).1.mpr
      ⟨by decide, fun p hp => absurd hp (List.not_mem_nil p)⟩
  exact ⟨hmem, (c2_unexplained_spec [] ["umls_x".toList] "umls_x".toList).2.2 hmem⟩

/-- C4: a mention matching no label-table entry resolves to its own
normalized slug; when that slug is additionally the symptom of no fact, the
ranked output is empty and the unexplained computation reports exactly that
slug (spec Example 2). -/
theorem c4_unresolved_mention (smap : List (Slug × List Char))
    (facts : List (Slug × Slug)) (mention : List Char)
    (hnomatch : ∀ p ∈ smap,
      matchesMention ((pyStrip mention).map pyLower) p = false)
    (hunknown : ∀ p ∈ facts, p.2 ≠ slugify ((pyStrip mention).map pyLower)) :
    resolve_mention smap mention = slugify ((pyStrip mention).map pyLower) ∧
    differential_diagnosis facts [resolve_mention smap mention] = [] ∧
    unexplainedSyms (differential_diagnosis facts [resolve_mention smap mention])
        [resolve_mention smap mention] =
      [slugify ((pyStrip mention).map pyLower)] := by
  have hres : resolve_mention smap mention =
      slugify ((pyStrip mention).map pyLower) := by
    rw [resolve_mention]
    have hnone : smap.find? (matchesMention ((pyStrip mention).map pyLower)) = none := by
      rw [List.find?_eq_none]
      intro p hp
      simp [hnomatch p hp]
    rw [hnone]
  have hempty : abductive_explanation facts [resolve_mention smap mention] = [] := by
    rw [hres, abductive_explanation, List.foldl_cons, List.foldl_nil, stepExpl]
    have hds : explainingDiseases facts (slugify ((pyStrip mention).map pyLower)) = [] := by
      rw [explainingDiseases, List.filter_eq_nil_iff.mpr ?_]
      · rfl
      · intro p hp
        simp [hunknown p hp]
    rw [hds]
    rfl
  refine ⟨hres, ?_, ?_⟩
  · rw [differential_diagnosis, hempty]
    rfl
  · rw [differential_diagnosis, hempty, hres]
    rw [show rankExpl [] = [] from rfl, unexplainedSyms]
    simp

/-- A symptom label table without any entry matching `headache`. -/
def noMatchSmap : List (Slug × List Char) := [("umls_fever".toList, "Fever".toList)]

/-- Facts that never mention the slug `umls_headache`. -/
def noMatchFacts : List (Slug × Slug) := [("umls_flu".toList, "umls_fever".toList)]

theorem c4_witness :
    resolve_mention noMatchSmap "headache".toList =
      slugify ((pyStrip "headache".toList).map pyLower) ∧
    differential_diagnosis noMatchFacts
        [resolve_mention noMatchSmap "headache".toList] = [] ∧
    unexplainedSyms (differential_diagnosis noMatchFacts
        [resolve_mention noMatchSmap "headache".toList])
        [resolve_mention noMatchSmap "headache".toList] =
      [slugify ((pyStrip "headache".toList).map pyLower)] :=
  c4_unresolved_mention noMatchSmap noMatchFacts "headache".toList
    (by decide) (by decide)

/-- C5: the abductive query's keys are exactly the diseases sharing at least
one symptom with the observed sequence; each key maps to the non-empty,
duplicate-free set of distinct observed slugs the disease presents with
(unknown observed slugs hence contribute no entries and zero-match diseases
never appear); and the result equals the result on the first-occurrence
deduplicated sequence. -/
theorem c5_abduction_spec (facts : List (Slug × Slug)) (obs : List Slug) :
    (∀ d, (∃ l, (d, l) ∈ abductive_explanation facts obs) ↔
      ∃ s ∈ obs, (d, s) ∈ facts) ∧
    (∀ d l, (d, l) ∈ abductive_explanation facts obs →
      l ≠ [] ∧ l.Nodup ∧ ∀ t, t ∈ l ↔ (t ∈ obs ∧ (d, t) ∈ facts)) ∧
    abductive_explanation facts obs =
      abductive_explanation facts (firstDedup obs) := by
  refine ⟨fun d => abduce_key_iff facts obs d, fun d l h => ?_,
    abduce_firstDedup facts obs⟩
  obtain ⟨hnd, hne, hmem⟩ := abduce_entry_spec facts obs h
  exact ⟨hne, hnd, hmem⟩

theorem c5_witness :
    (∃ l, (("umls_d".toList : Slug), l) ∈ abductive_explanation dupFacts dupObs) ∧
    abductive_explanation dupFacts dupObs =
      abductive_explanation dupFacts (firstDedup dupObs) :=
  ⟨((c5_abduction_spec dupFacts dupObs).1 "umls_d".toList).mpr
      ⟨"umls_s".toList, by decide, by decide⟩,
    (c5_abduction_spec dupFacts dupObs).2.2⟩

/-- C6: the ranking stable-sorts explanation-map entries by matched-set size
descending: consecutive ranked entries have non-increasing sizes, the
subsequence of entries of any fixed size equals that of the input (ties keep
encounter order), and enumerating from 1 gives each position `i` the 1-based
rank `i + 1`. -/
theorem c6_rank_stable_descending (m : List Entry) :
    (∀ i a b, (rankExpl m).get? i = some a → (rankExpl m).get? (i + 1) = some b →
      b.2.length ≤ a.2.length) ∧
    (∀ k, (rankExpl m).filter (fun e => decide (e.2.length = k)) =
      m.filter (fun e => decide (e.2.length = k))) ∧
    (∀ i, (pyEnumerate 1 (rankExpl m)).get? i =
      ((rankExpl m).get? i).map (fun e => (i + 1, e))) := by
  refine ⟨fun i a b ha hb => rankExpl_desc m i a b ha hb,
    fun k => filter_rankExpl m k, fun i => ?_⟩
  rw [pyEnumerate_get?]
  cases (rankExpl m).get? i <;> simp [Nat.add_comm]

/-- A two-entry explanation map with distinct matched-set sizes. -/
def rankWitnessMap : List Entry :=
  [("umls_a".toList, ["umls_s".toList]),
   ("umls_b".toList, ["umls_s".toList, "umls_t".toList])]

theorem c6_witness :
    (["umls_s".toList] : List Slug).length ≤
      (["umls_s".toList, "umls_t".toList] : List Slug).length ∧
    (pyEnumerate 1 (rankExpl rankWitnessMap)).get? 0 =
      ((rankExpl rankWitnessMap).get? 0).map (fun e => (0 + 1, e)) :=
  ⟨(c6_rank_stable_descending rankWitnessMap).1 0
      ("umls_b".toList, ["umls_s".toList, "umls_t".toList])
      ("umls_a".toList, ["umls_s".toList]) (by decide) (by decide),
    (c6_rank_stable_descending rankWitnessMap).2.2 0⟩

/-- C8: diagnosing zero observed symptoms yields an empty ranking and an
empty unexplained list (all operations are total, so no failure is
signalled), and the coverage percentage guard returns 0 for an empty
observation list instead of dividing by zero. -/
theorem c8_empty_query (facts : List (Slug × Slug)) (k : Nat) :
    differential_diagnosis facts [] = [] ∧
    unexplainedSyms (differential_diagnosis facts []) [] = [] ∧
    percentCov k [] = 0 :=
  ⟨rfl, rfl, rfl⟩

/-- C10: when the observed sequence contains a duplicate slug, no disease is
fully explanatory (matched sets hold at most the distinct slugs, while the
test compares against the total mention count) and every entry's coverage
percentage is strictly below 100. -/
theorem c10_duplicates_block_full_coverage (facts : List (Slug × Slug))
    (obs : List Slug) (hdup : ¬obs.Nodup) :
    fullyExplanatory (differential_diagnosis facts obs) obs = [] ∧
    ∀ p ∈ differential_diagnosis facts obs, percentCov p.2.length obs < 100 := by
  have hlen : ∀ p ∈ differential_diagnosis facts obs, p.2.length < obs.length := by
    intro p hp
    have hp' : p ∈ abductive_explanation facts obs :=
      (mem_differential_iff facts obs p).mp hp
    exact Nat.lt_of_le_of_lt (entry_length_le_firstDedup facts obs hp')
      (length_firstDedup_lt_of_not_nodup hdup)
  constructor
  · rw [fullyExplanatory, List.filter_eq_nil_iff]
    intro t ht
    have ht2 : t.2 ∈ differential_diagnosis facts obs := by
      have := (mem_pyEnumerate_iff (differential_diagnosis facts obs) 1 t).mp ht
      exact List.get?_mem this.2
    have := hlen t.2 ht2
    simp only [decide_eq_true_iff]
    omega
  · intro p hp
    exact percentCov_lt_100 (hlen p hp)

theorem c10_witness :
    fullyExplanatory (differential_diagnosis dupFacts dupObs) dupObs = [] ∧
    ∀ p ∈ differential_diagnosis dupFacts dupObs,
      percentCov p.2.length dupObs < 100 :=
  c10_duplicates_block_full_coverage dupFacts dupObs (by decide)
